import Mathlib

set_option maxRecDepth 1000000

/-!
Verification of the numeric trait layer of the libx library.

The floating-point implementations under scrutiny (`impl FloatingPoint for
f32` in `src/num/traits.rs`) operate on IEEE-754 single-precision values.
We embed an `f32` value shallowly as its bit-pattern fields (sign bit,
8-bit biased exponent, 23-bit mantissa) and give the operations exact
semantics: the value of a finite pattern is the rational number
`val p = ± mag p / 2 ^ 150` (`mag` is the integer significand scaled into
position), and every arithmetic operation of the source (`+`, `-`, `/` on
`f32`, as well as the `as i32` / `as f32` casts) is modelled as the exact
rational result rounded back to a representable value with IEEE
round-to-nearest, ties-to-even — which is precisely what the hardware does
for these operations.  All executable definitions work on the exact
numerator/denominator integers (so that the kernel can evaluate them); the
rational-valued function `val` ties them to the numerical reading used in
the theorem statements.

The fixed-width integer operations (`impl FixedWidthInteger for u8` and the
two variants of `BinaryInteger::bit_width`) are embedded over `Nat` with
explicit `% 256` wrapping.
-/

namespace LibxSpec

/-- An `f32` bit pattern, split into its sign bit, 8-bit biased exponent
field and 23-bit mantissa field. -/
structure F32 where
  sign : Bool
  ex : Nat
  man : Nat
deriving DecidableEq

/-- Wellformedness of a pattern: the exponent field fits in 8 bits and the
mantissa field in 23 bits. -/
def WF (p : F32) : Prop := p.ex < 256 ∧ p.man < 2 ^ 23

instance (p : F32) : Decidable (WF p) := by unfold WF; infer_instance

/-- Rust `f32::is_nan`: exponent field all ones, mantissa nonzero. -/
def is_nan (p : F32) : Bool := p.ex == 255 && p.man != 0

/-- Rust `f32::is_infinite`: exponent field all ones, mantissa zero. -/
def is_infinite (p : F32) : Bool := p.ex == 255 && p.man == 0

/-- Rust `f32::is_normal`: exponent field neither zero nor all ones. -/
def is_normal (p : F32) : Bool := p.ex != 0 && p.ex != 255

/-- Rust `f32::is_subnormal`: exponent field zero, mantissa nonzero. -/
def is_subnormal (p : F32) : Bool := p.ex == 0 && p.man != 0

/-- Rust `f32::is_sign_negative`: the sign bit. -/
def is_sign_negative (p : F32) : Bool := p.sign

/-- The magnitude of a finite pattern, scaled by `2 ^ 150` so that it is a
natural number: a normal pattern with exponent field `e` and mantissa `m`
has value `(2^23 + m) * 2^(e - 150)`, a subnormal one `m * 2^(1 - 150)`. -/
def mag (p : F32) : Nat := (p.man + if p.ex = 0 then 0 else 2 ^ 23) * 2 ^ (max p.ex 1)

/-- The signed scaled magnitude of a finite pattern: `val p * 2 ^ 150`. -/
def sgmag (p : F32) : ℤ := (if p.sign then -1 else 1) * (mag p : ℤ)

/-- The exact rational value of a finite pattern. -/
def val (p : F32) : ℚ := (sgmag p : ℚ) / 2 ^ 150

/-- The pattern of `0.0_f32`. -/
def posZero : F32 := ⟨false, 0, 0⟩

/-- The pattern of `-0.0_f32`. -/
def negZero : F32 := ⟨true, 0, 0⟩

/-- The pattern of `f32::INFINITY`. -/
def posInf : F32 := ⟨false, 255, 0⟩

/-- The pattern of `f32::NEG_INFINITY`. -/
def negInf : F32 := ⟨true, 255, 0⟩

/-- The pattern of `f32::NAN` (the canonical quiet NaN, `0x7FC00000`). -/
def qNaN : F32 := ⟨false, 255, 2 ^ 22⟩

/-- The pattern of `1.0_f32`. -/
def one : F32 := ⟨false, 127, 0⟩

/-- The pattern of `0.5_f32`. -/
def half : F32 := ⟨false, 126, 0⟩

/-- The pattern of `2.0_f32`. -/
def two : F32 := ⟨false, 128, 0⟩

/-- The pattern of `4.0_f32`. -/
def four : F32 := ⟨false, 129, 0⟩

/-- IEEE-754 `==` on `f32`: false when either operand is NaN, identifies
`+0.0` with `-0.0`, and otherwise compares exact values. -/
def f32eq (a b : F32) : Bool :=
  if is_nan a || is_nan b then false
  else if is_infinite a || is_infinite b then decide (a = b)
  else decide (sgmag a = sgmag b)

/-- IEEE-754 `<` on `f32`: false when either operand is NaN; `-inf` is
below and `+inf` above every other non-NaN value; finite values compare
by their exact values. -/
def f32lt (a b : F32) : Bool :=
  if is_nan a || is_nan b then false
  else if is_infinite a then (if a.sign then !(is_infinite b && b.sign) else false)
  else if is_infinite b then !b.sign
  else decide (sgmag a < sgmag b)

/-- IEEE-754 `>` on `f32`. -/
def f32gt (a b : F32) : Bool := f32lt b a

/-- IEEE-754 `<=` on `f32`. -/
def f32le (a b : F32) : Bool := f32lt a b || f32eq a b

/-- IEEE-754 `>=` on `f32`. -/
def f32ge (a b : F32) : Bool := f32le b a

/-- Fuelled binary logarithm (structural recursion, so that the kernel can
evaluate it). -/
def lg : Nat → Nat → Nat
  | 0, _ => 0
  | fuel + 1, n => if n ≤ 1 then 0 else lg fuel (n / 2) + 1

/-- `⌊log2 n⌋` for `0 < n < 2 ^ 600` (every number this development ever
takes a logarithm of is far below that bound). -/
def log2n (n : Nat) : Nat := lg 600 n

/-- Round the fraction `n / d` (with `0 < d`) to the nearest natural
number, ties to even. -/
def rneN (n d : Nat) : Nat :=
  let f := n / d
  let r2 := 2 * (n - f * d)
  if r2 < d then f else if d < r2 then f + 1 else if f % 2 = 0 then f else f + 1

/-- The exponent field the positive rational `n / d` rounds into: the
largest `e ∈ [1, 254]` with `2 ^ (e - 127) ≤ n / d`, and `1` for the
subnormal range (`n / d < 2 ^ (-126)`). -/
def expFor (n d : Nat) : Nat := min 254 (max 1 (log2n (n * 2 ^ 127 / d)))

/-- Round the positive rational `n / d` to the `f32` grid (nearest, ties
to even), attaching sign bit `s`; overflows to infinity. -/
def roundPos (s : Bool) (n d : Nat) : F32 :=
  let e := expFor n d
  let m := rneN (n * 2 ^ 150) (d * 2 ^ e)
  if 2 ^ 24 ≤ m then (if 254 ≤ e then ⟨s, 255, 0⟩ else ⟨s, e + 1, 0⟩)
  else if 2 ^ 23 ≤ m then ⟨s, e, m - 2 ^ 23⟩
  else ⟨s, 0, m⟩

/-- IEEE round-to-nearest-even of the exact rational `± n / d` (sign bit
`s`, `0 < d`) to an `f32` pattern. -/
def RN (s : Bool) (n d : Nat) : F32 := if n = 0 then posZero else roundPos s n d

/-- `f32` negation (flips the sign bit). -/
def fneg (p : F32) : F32 := ⟨!p.sign, p.ex, p.man⟩

/-- `f32::abs` (clears the sign bit). -/
def fabs (p : F32) : F32 := ⟨false, p.ex, p.man⟩

/-- `f32` addition: NaN/infinity special cases, the IEEE sign rule for an
exactly zero result, and otherwise the exact sum
`(sgmag a + sgmag b) / 2 ^ 150` rounded to nearest-even. -/
def fadd (a b : F32) : F32 :=
  if is_nan a || is_nan b then qNaN
  else if is_infinite a then (if is_infinite b && a.sign != b.sign then qNaN else a)
  else if is_infinite b then b
  else
    let t := sgmag a + sgmag b
    if t = 0 then
      (if mag a = 0 && mag b = 0 && a.sign && b.sign then negZero else posZero)
    else RN (decide (t < 0)) t.natAbs (2 ^ 150)

/-- `f32` subtraction: NaN/infinity special cases, the IEEE sign rule for
an exactly zero result, and otherwise the exact difference
`(sgmag a - sgmag b) / 2 ^ 150` rounded to nearest-even. -/
def fsub (a b : F32) : F32 :=
  if is_nan a || is_nan b then qNaN
  else if is_infinite a then (if is_infinite b && a.sign == b.sign then qNaN else a)
  else if is_infinite b then fneg b
  else
    let t := sgmag a - sgmag b
    if t = 0 then
      (if mag a = 0 && mag b = 0 && a.sign && !b.sign then negZero else posZero)
    else RN (decide (t < 0)) t.natAbs (2 ^ 150)

/-- `f32` division: NaN/infinity/zero special cases, and otherwise the
exact quotient `± mag a / mag b` rounded to nearest-even. -/
def fdiv (a b : F32) : F32 :=
  if is_nan a || is_nan b then qNaN
  else if is_infinite a then (if is_infinite b then qNaN else ⟨xor a.sign b.sign, 255, 0⟩)
  else if is_infinite b then ⟨xor a.sign b.sign, 0, 0⟩
  else if mag b = 0 then (if mag a = 0 then qNaN else ⟨xor a.sign b.sign, 255, 0⟩)
  else if mag a = 0 then ⟨xor a.sign b.sign, 0, 0⟩
  else RN (xor a.sign b.sign) (mag a) (mag b)

/-- The Rust cast `self as i32` on an `f32`: truncate toward zero
(`mag p / 2 ^ 150` is exactly the truncated magnitude) and saturate to the
`i32` range; NaN casts to 0. -/
def as_i32 (p : F32) : ℤ :=
  if is_nan p then 0
  else if is_infinite p then (if p.sign then -(2 ^ 31) else 2 ^ 31 - 1)
  else
    max (-(2 ^ 31)) (min (2 ^ 31 - 1)
      (if p.sign then -((mag p / 2 ^ 150 : Nat) : ℤ) else ((mag p / 2 ^ 150 : Nat) : ℤ)))

/-- The Rust cast `n as f32` on an `i32`: round to nearest-even. -/
def as_f32 (n : ℤ) : F32 := RN (decide (n < 0)) n.natAbs 1

/-- `ceil` from `impl FloatingPoint for f32` (src/num/traits.rs:1763). -/
def ceil (p : F32) : F32 :=
  if is_nan p then p
  else if is_infinite p then p
  else if f32ge p posZero then
    fadd (as_f32 (as_i32 p)) (if f32eq p (as_f32 (as_i32 p)) then posZero else one)
  else as_f32 (as_i32 p)

/-- `floor` from `impl FloatingPoint for f32` (src/num/traits.rs:1784). -/
def floor (p : F32) : F32 :=
  if is_nan p then p
  else if is_infinite p then p
  else if f32ge p posZero then as_f32 (as_i32 p)
  else
    let truncated := as_f32 (as_i32 p)
    if f32eq p truncated then truncated else fsub truncated one

/-- `fract` from `impl FloatingPoint for f32`: `self - self.floor()`. -/
def fract (p : F32) : F32 := fsub p (floor p)

/-- `trunc` from `impl FloatingPoint for f32`: `self - self.fract()`. -/
def trunc (p : F32) : F32 := fsub p (fract p)

/-- `is_zero` from `impl FloatingPoint for f32`: `*self == 0.0`. -/
def is_zero (p : F32) : Bool := f32eq p posZero

/-- `is_signaling_nan` from `impl FloatingPoint for f32`: always false. -/
def is_signaling_nan (_ : F32) : Bool := false

/-- `is_finite` from `impl FloatingPoint for f32`:
`self.is_normal() || self.is_zero()`. -/
def is_finite (p : F32) : Bool := is_normal p || is_zero p

/-- The ten variants of the `FloatingPointClassification` enum. -/
inductive FloatingPointClassification where
  | signalingNaN
  | quietNaN
  | negativeInfinity
  | positiveInfinity
  | negativeZero
  | positiveZero
  | negativeNormal
  | positiveNormal
  | negativeSubnormal
  | positiveSubnormal
deriving DecidableEq

/-- `floating_point_class` from `impl FloatingPoint for f32`
(src/num/traits.rs:1818); `none` models the final `panic!` branch. -/
def floating_point_class (p : F32) : Option FloatingPointClassification :=
  if is_nan p then
    some (if is_signaling_nan p then .signalingNaN else .quietNaN)
  else if is_infinite p then
    some (if is_sign_negative p then .negativeInfinity else .positiveInfinity)
  else if is_zero p then
    some (if is_sign_negative p then .negativeZero else .positiveZero)
  else if is_normal p then
    some (if is_sign_negative p then .negativeNormal else .positiveNormal)
  else if is_subnormal p then
    some (if is_sign_negative p then .negativeSubnormal else .positiveSubnormal)
  else none

/-- The defining predicate of each classification variant. -/
def classPred (c : FloatingPointClassification) (p : F32) : Bool :=
  match c with
  | .signalingNaN => is_nan p && is_signaling_nan p
  | .quietNaN => is_nan p && !is_signaling_nan p
  | .negativeInfinity => is_infinite p && is_sign_negative p
  | .positiveInfinity => is_infinite p && !is_sign_negative p
  | .negativeZero => is_zero p && is_sign_negative p
  | .positiveZero => is_zero p && !is_sign_negative p
  | .negativeNormal => is_normal p && is_sign_negative p
  | .positiveNormal => is_normal p && !is_sign_negative p
  | .negativeSubnormal => is_subnormal p && is_sign_negative p
  | .positiveSubnormal => is_subnormal p && !is_sign_negative p

/-- The bit pattern of an `F32` as an unsigned 32-bit integer
(`f32::to_bits`). -/
def to_bits (p : F32) : Nat := (if p.sign then 2 ^ 31 else 0) + p.ex * 2 ^ 23 + p.man

/-- `f32::from_bits`: split a 32-bit word into the three fields. -/
def from_bits (n : Nat) : F32 := ⟨decide (2 ^ 31 ≤ n % 2 ^ 32), n / 2 ^ 23 % 256, n % 2 ^ 23⟩

/-- `next_up` from `impl FloatingPoint for f32` (src/num/traits.rs:1914):
NaN and infinities are returned unchanged, a zero is returned as the
correspondingly signed zero, and otherwise the bit pattern is decremented
(negative) or incremented (positive). -/
def next_up (p : F32) : F32 :=
  if is_nan p then p
  else if is_infinite p then (if is_sign_negative p then negInf else posInf)
  else if f32eq p posZero then (if is_sign_negative p then negZero else posZero)
  else if is_sign_negative p then from_bits (to_bits p - 1)
  else from_bits (to_bits p + 1)

/-- `next_down` from `impl FloatingPoint for f32` (src/num/traits.rs:1886). -/
def next_down (p : F32) : F32 :=
  if is_nan p then p
  else if is_infinite p then (if is_sign_negative p then negInf else posInf)
  else if f32eq p posZero then (if is_sign_negative p then negZero else posZero)
  else if is_sign_negative p then from_bits (to_bits p + 1)
  else from_bits (to_bits p - 1)

/-- `rounded` from `impl FloatingPoint for f32` (src/num/traits.rs:2073). -/
def rounded (p : F32) : F32 :=
  let int_part := trunc p
  let frac_part := fract p
  if f32eq frac_part half || f32eq frac_part (fneg half) then
    (if f32gt p posZero then fadd int_part one else fsub int_part one)
  else if f32ge frac_part half then fadd int_part one
  else int_part

/-- The `FloatingPointRoundingRule` enum. -/
inductive FloatingPointRoundingRule where
  | awayFromZero
  | down
  | toNearestOrAwayFromZero
  | toNearestOrEven
  | towardZero
  | up
deriving DecidableEq

/-- `rounded_with` from `impl FloatingPoint for f32`
(src/num/traits.rs:2094); the `ToNearestOrAwayFromZero` arm reproduces the
source's duplicated `(self.fract() - 0.5).abs() < 0.1` disjunct. -/
def rounded_with (p : F32) (rule : FloatingPointRoundingRule) : F32 :=
  match rule with
  | .awayFromZero =>
      if f32gt p posZero then ceil p
      else if f32lt p posZero then floor p
      else p
  | .down => floor p
  | .toNearestOrAwayFromZero =>
      if is_nan p then p
      else if f32lt (fabs (fsub (fract p) half)) (RN false 1 10)
          || f32lt (fabs (fsub (fract p) half)) (RN false 1 10) then
        (if f32gt p posZero then ceil p
         else if f32lt p posZero then floor p
         else p)
      else rounded p
  | .toNearestOrEven => if is_nan p then p else rounded p
  | .towardZero => trunc p
  | .up => ceil p

/-- `is_equal_to` from `impl FloatingPoint for f32` (src/num/traits.rs:2010):
`(self - other).abs() < 0.1` (the `f32` literal `0.1` is `RN false 1 10`). -/
def is_equal_to (a b : F32) : Bool := f32lt (fabs (fsub a b)) (RN false 1 10)

/-- The Newton-Raphson loop of `square_root`
(`while (guess - last_guess).abs() > tolerance`), with explicit fuel;
`none` models non-termination within the fuel bound.  The `f32` literal
`1e-6` is `RN false 1 1000000`. -/
def sqrt_loop (x : F32) : Nat → F32 → F32 → Option F32
  | 0, _, _ => none
  | fuel + 1, guess, last_guess =>
      if f32gt (fabs (fsub guess last_guess)) (RN false 1 1000000) then
        sqrt_loop x fuel (fdiv (fadd guess (fdiv x guess)) two) guess
      else some guess

/-- `square_root` from `impl FloatingPoint for f32` (src/num/traits.rs:2133):
negative input gives NaN, zero gives zero, otherwise Newton-Raphson from
`self / 2.0` with tolerance `1e-6`. -/
def square_root (p : F32) : Option F32 :=
  if f32lt p posZero then some qNaN
  else if f32eq p posZero then some posZero
  else sqrt_loop p 100 (fdiv p two) posZero

/-! ### The `u8` fixed-width integer operations (src/num/traits.rs:695). -/

/-- `adding_reporting_overflow` for `u8` (`overflowing_add`). -/
def adding_reporting_overflow (a b : Nat) : Nat × Bool :=
  ((a + b) % 256, decide (256 ≤ a + b))

/-- `subtracting_reporting_overflow` for `u8` (`overflowing_sub`). -/
def subtracting_reporting_overflow (a b : Nat) : Nat × Bool :=
  ((a + 256 - b) % 256, decide (a < b))

/-- `multiplied_reporting_overflow` for `u8` (`overflowing_mul`). -/
def multiplied_reporting_overflow (a b : Nat) : Nat × Bool :=
  ((a * b) % 256, decide (256 ≤ a * b))

/-- `divided_reporting_overflow` for `u8`: `(0, true)` on a zero divisor,
otherwise `overflowing_div` (which never overflows for `u8`). -/
def divided_reporting_overflow (a b : Nat) : Nat × Bool :=
  if b = 0 then (0, true) else (a / b, false)

/-- `remainder_reporting_overflow` for `u8`: `(0, true)` on a zero divisor,
otherwise `overflowing_rem` (which never overflows for `u8`). -/
def remainder_reporting_overflow (a b : Nat) : Nat × Bool :=
  if b = 0 then (0, true) else (a % b, false)

/-- `bit_width` for `u8` per the default method of `BinaryInteger` in
src/num/traits.rs:397: `mem::size_of::<Self>() * 8`, value-independent. -/
def bit_width (_ : Nat) : Nat := 8

/-- `count_ones` on a `u8` value. -/
def count_ones_u8 (x : Nat) : Nat := (List.range 8).countP (fun i => x.testBit i)

/-- `bit_width` for `u8` per `impl BinaryInteger for u8` in
src/num/traits/basic.rs:199 (and src/num/traits/mod.rs): `0` for the value
`0`, otherwise `self.count_ones()`. -/
def basic_bit_width (x : Nat) : Nat := if x = 0 then 0 else count_ones_u8 x

/-- The canonical pattern of the integer `± n` (sign bit `s`), correct for
`n ≤ 2 ^ 24`. -/
def pOfNat (s : Bool) (n : Nat) : F32 :=
  if n = 0 then posZero
  else ⟨s, 127 + log2n n, (n - 2 ^ log2n n) * 2 ^ (23 - log2n n)⟩

/-! ### Basic facts about the model -/

lemma mag_eq_zero (p : F32) : mag p = 0 ↔ p.ex = 0 ∧ p.man = 0 := by
  unfold mag
  by_cases h : p.ex = 0 <;>
    simp [h, Nat.mul_eq_zero, Nat.pow_eq_zero]

lemma sgmag_eq_zero (p : F32) : sgmag p = 0 ↔ mag p = 0 := by
  unfold sgmag
  cases hs : p.sign <;> simp

lemma sgmag_of_pos (p : F32) (h : p.sign = false) : sgmag p = (mag p : ℤ) := by
  simp [sgmag, h]

lemma sgmag_of_neg (p : F32) (h : p.sign = true) : sgmag p = -(mag p : ℤ) := by
  simp [sgmag, h]

lemma sgmag_posZero : sgmag posZero = 0 := rfl

lemma is_zero_iff (p : F32) : is_zero p = true ↔ p.ex = 0 ∧ p.man = 0 := by
  unfold is_zero f32eq
  by_cases hn : is_nan p = true
  · have h1 : p.ex = 255 ∧ p.man ≠ 0 := by simpa [is_nan] using hn
    simp [hn]
    omega
  · by_cases hi : is_infinite p = true
    · have h1 : p.ex = 255 := by simp [is_infinite] at hi; exact hi.1
      have h2 : is_nan posZero = false := rfl
      have h3 : is_infinite posZero = false := rfl
      simp only [hn, h2, h3, Bool.or_false, Bool.false_or, hi, Bool.or_true,
        if_true, Bool.not_eq_true] at *
      simp only [eq_self_iff_true, if_false, hn, Bool.false_eq_true, if_true,
        decide_eq_true_eq]
      constructor
      · intro hp; rw [hp] at h1; simp [posZero] at h1
      · intro hp; omega
    · have h2 : is_nan posZero = false := rfl
      have h3 : is_infinite posZero = false := rfl
      simp only [Bool.not_eq_true] at hn hi
      simp only [hn, h2, h3, hi, Bool.or_self, Bool.false_or, Bool.or_false,
        Bool.false_eq_true, if_false, decide_eq_true_eq, sgmag_posZero]
      rw [sgmag_eq_zero, mag_eq_zero]

lemma finite_ex_le (p : F32) (h1 : is_nan p = false) (h2 : is_infinite p = false) :
    p.ex ≤ 254 ∨ 256 ≤ p.ex := by
  by_cases hm : p.man = 0
  · simp [is_infinite, hm] at h2; omega
  · simp [is_nan, hm] at h1; omega

/-! ### Claim theorems: the straightforward ones -/

/-- C5: for every `u8` value `a`, `a.divided_reporting_overflow(0)` and
`a.remainder_reporting_overflow(0)` return `(0, true)` (a reported
overflow with a defined zero result) rather than faulting, and the
reporting operations flag overflow at the `MAX`/`MIN` boundary with the
wrapped result, e.g. `u8::MAX.adding_reporting_overflow(1) == (0, true)`. -/
theorem c5_reporting_overflow (a : Nat) (h : a < 256) :
    divided_reporting_overflow a 0 = (0, true) ∧
    remainder_reporting_overflow a 0 = (0, true) ∧
    adding_reporting_overflow 255 1 = (0, true) ∧
    subtracting_reporting_overflow 0 1 = (255, true) ∧
    multiplied_reporting_overflow 255 2 = (254, true) :=
  ⟨rfl, rfl, by decide, by decide, by decide⟩

/-- Witness for C5 at the concrete `u8` value 7. -/
theorem c5_witness :
    7 < 256 ∧
    (divided_reporting_overflow 7 0 = (0, true) ∧
     remainder_reporting_overflow 7 0 = (0, true) ∧
     adding_reporting_overflow 255 1 = (0, true) ∧
     subtracting_reporting_overflow 0 1 = (255, true) ∧
     multiplied_reporting_overflow 255 2 = (254, true)) :=
  ⟨by decide, c5_reporting_overflow 7 (by decide)⟩

/-- C6: `is_finite` is `is_normal() || is_zero()`, so every subnormal
value is not finite under this library's definition (diverging from the
common definition, under which subnormal values are finite). -/
theorem c6_is_finite (p : F32) (h : WF p) :
    is_finite p = (is_normal p || is_zero p) ∧
    (is_subnormal p = true → is_finite p = false) := by
  refine ⟨rfl, fun hs => ?_⟩
  have hs' : p.ex = 0 ∧ p.man ≠ 0 := by simpa [is_subnormal] using hs
  have hz : is_zero p = false := by
    cases hz : is_zero p
    · rfl
    · exact absurd ((is_zero_iff p).1 hz).2 hs'.2
  simp [is_finite, is_normal, hs'.1, hz]

/-- Witness for C6 at the least positive subnormal pattern. -/
theorem c6_witness :
    WF ⟨false, 0, 1⟩ ∧
    (is_finite ⟨false, 0, 1⟩ = (is_normal ⟨false, 0, 1⟩ || is_zero ⟨false, 0, 1⟩) ∧
     (is_subnormal ⟨false, 0, 1⟩ = true → is_finite ⟨false, 0, 1⟩ = false)) :=
  ⟨by decide, c6_is_finite ⟨false, 0, 1⟩ (by decide)⟩

/-- C8: for every non-NaN value, `rounded_with(ToNearestOrEven)` returns
exactly `rounded()` — the rule delegates to the default away-from-zero
rounding, and no banker's rounding is performed. -/
theorem c8_to_nearest_or_even (p : F32) (h : is_nan p = false) :
    rounded_with p FloatingPointRoundingRule.toNearestOrEven = rounded p := by
  simp [rounded_with, h]

/-- Witness for C8 at the pattern of `2.5_f32`. -/
theorem c8_witness :
    is_nan ⟨false, 128, 2 ^ 21⟩ = false ∧
    rounded_with ⟨false, 128, 2 ^ 21⟩ FloatingPointRoundingRule.toNearestOrEven =
      rounded ⟨false, 128, 2 ^ 21⟩ :=
  ⟨by decide, c8_to_nearest_or_even ⟨false, 128, 2 ^ 21⟩ (by decide)⟩

/-- C9, counterexample: the claim says `bit_width()` returns the fixed
per-type bit count (8 for `u8`) independently of the value, but the
`impl BinaryInteger for u8` of src/num/traits/basic.rs returns the
population count: at the `u8` value 5 it returns 2, not 8, and its result
varies with the value (1 at the value 1). -/
theorem c9_counterexample :
    basic_bit_width 5 = 2 ∧ basic_bit_width 1 = 1 ∧ bit_width 5 = 8 := by decide

/-- C9, amended: `bit_width` from the trait default of src/num/traits.rs
is the constant 8 on every `u8` value, while the overriding impl of
src/num/traits/basic.rs (and mod.rs) is the population count, which equals
8 only at the value 255. -/
theorem c9_bit_width (x : Nat) (h : x < 256) :
    bit_width x = 8 ∧ (basic_bit_width x = 8 ↔ x = 255) := by
  have H : ∀ y, y < 256 → (bit_width y = 8 ∧ (basic_bit_width y = 8 ↔ y = 255)) := by decide
  exact H x h

/-- Witness for C9 at the `u8` value 5. -/
theorem c9_witness :
    5 < 256 ∧ (bit_width 5 = 8 ∧ (basic_bit_width 5 = 8 ↔ 5 = 255)) :=
  ⟨by decide, c9_bit_width 5 (by decide)⟩

/-- C10: `is_equal_to` on `f32` is the absolute-tolerance comparison
`(self - other).abs() < 0.1`, not exact equality: the distinct values
`1.0` and `1.05` compare as equal, and it is not transitive — with
`a = 0.0`, `b = 0.09`, `c = 0.18` the relation holds for `(a, b)` and
`(b, c)` but not `(a, c)`. -/
theorem c10_is_equal_to :
    (∀ a b, is_equal_to a b = f32lt (fabs (fsub a b)) (RN false 1 10)) ∧
    is_equal_to one (RN false 21 20) = true ∧
    one ≠ RN false 21 20 ∧
    is_equal_to posZero (RN false 9 100) = true ∧
    is_equal_to (RN false 9 100) (RN false 9 50) = true ∧
    is_equal_to posZero (RN false 9 50) = false :=
  ⟨fun _ _ => rfl, by decide, by decide, by decide, by decide, by decide⟩

/-- C3: `2.5_f32.rounded()` is indeed `3.0`, but the negative-half case of
`rounded` is broken: on `-0.5_f32` (the pattern `⟨true, 126, 0⟩`, of value
`-1/2`) the code returns `-2.0` (the pattern `⟨true, 128, 0⟩`, of value
`-2`), while round-half-away-from-zero requires `-1.0`.  The culprit is
`trunc`: `fract = self - floor(self)` makes
`trunc = self - fract = floor(self)`, which for negative non-integers is
the floor, not the truncated integer part; the exact-half branch then
subtracts one more. -/
theorem c3_rounded_values :
    rounded ⟨false, 128, 2 ^ 21⟩ = ⟨false, 128, 2 ^ 22⟩ ∧
    rounded ⟨true, 126, 0⟩ = ⟨true, 128, 0⟩ ∧
    val ⟨false, 128, 2 ^ 21⟩ = 5 / 2 ∧
    val ⟨false, 128, 2 ^ 22⟩ = 3 ∧
    val ⟨true, 126, 0⟩ = -(1 / 2) ∧
    val ⟨true, 128, 0⟩ = -2 ∧
    trunc ⟨true, 126, 0⟩ = ⟨true, 127, 0⟩ :=
  ⟨by decide, by decide, by norm_num [val, sgmag, mag], by norm_num [val, sgmag, mag],
   by norm_num [val, sgmag, mag], by norm_num [val, sgmag, mag], by decide⟩

/-- C7: `square_root` on `f32` returns NaN for every negative input
(including `-inf`), returns `0.0` exactly on `±0.0`, and on `4.0` the
Newton-Raphson loop terminates (two guard evaluations) with exactly `2.0`,
well within the `1e-6` tolerance. -/
theorem c7_square_root (p : F32) (h : f32lt p posZero = true) :
    square_root p = some qNaN ∧
    square_root posZero = some posZero ∧
    square_root negZero = some posZero ∧
    square_root four = some two ∧
    val four = 4 ∧ val two = 2 := by
  refine ⟨?_, by decide, by decide, by decide, ?_, ?_⟩
  · simp [square_root, h]
  · norm_num [val, sgmag, mag, four]
  · norm_num [val, sgmag, mag, two]

/-- Witness for C7 at the pattern of `-1.0_f32`. -/
theorem c7_witness :
    f32lt (fneg one) posZero = true ∧
    (square_root (fneg one) = some qNaN ∧
     square_root posZero = some posZero ∧
     square_root negZero = some posZero ∧
     square_root four = some two ∧
     val four = 4 ∧ val two = 2) :=
  ⟨by decide, c7_square_root (fneg one) (by decide)⟩

/-- C2, counterexample: `0.0_f32` is neither NaN nor infinite (nor a
representable extremum), yet `next_up` returns it unchanged, so
`x.next_up() > x` fails at `x = 0.0` (and `next_down` likewise). -/
theorem c2_counterexample :
    is_nan posZero = false ∧ is_infinite posZero = false ∧
    next_up posZero = posZero ∧ f32gt (next_up posZero) posZero = false ∧
    next_down posZero = posZero ∧ f32lt (next_down posZero) posZero = false := by
  decide

/-- C4, counterexample: at the finite value `3 * 2^30 = 3221225472.0_f32`
(the pattern `⟨false, 158, 2^22⟩`) the saturating `as i32` cast makes
`ceil` return `2^31 = 2147483648.0`, which is strictly below the input:
`x <= x.ceil()` fails. -/
theorem c4_counterexample :
    is_nan ⟨false, 158, 2 ^ 22⟩ = false ∧
    is_infinite ⟨false, 158, 2 ^ 22⟩ = false ∧
    f32le ⟨false, 158, 2 ^ 22⟩ (ceil ⟨false, 158, 2 ^ 22⟩) = false ∧
    ceil ⟨false, 158, 2 ^ 22⟩ = ⟨false, 158, 0⟩ ∧
    val ⟨false, 158, 2 ^ 22⟩ = 3 * 2 ^ 30 ∧
    val ⟨false, 158, 0⟩ = 2 ^ 31 := by
  refine ⟨by decide, by decide, by decide, by decide, ?_, ?_⟩
  · norm_num [val, sgmag, mag]
  · norm_num [val, sgmag, mag]

/-- C1: on every wellformed bit pattern, `floating_point_class` returns a
classification (the final `panic!` branch, modelled as `none`, is
unreachable), and exactly one of the ten variants applies: a variant's
defining predicate holds precisely when the function returns it, following
the priority order NaN (signaling/quiet) → infinity → zero → normal →
subnormal. -/
theorem c1_floating_point_class (p : F32) (h : WF p) :
    (∃ c, floating_point_class p = some c) ∧
    (∀ c, classPred c p = true ↔ floating_point_class p = some c) := by
  obtain ⟨he, hm⟩ := h
  by_cases h255 : p.ex = 255
  · by_cases hm0 : p.man = 0
    · -- ±infinity
      have e1 : is_nan p = false := by simp [is_nan, hm0]
      have e2 : is_infinite p = true := by simp [is_infinite, h255, hm0]
      have e3 : is_zero p = false := by
        cases hz : is_zero p
        · rfl
        · have := ((is_zero_iff p).1 hz).1; omega
      have e4 : is_normal p = false := by simp [is_normal, h255]
      have e5 : is_subnormal p = false := by simp [is_subnormal, hm0]
      refine ⟨⟨if p.sign then .negativeInfinity else .positiveInfinity, ?_⟩, ?_⟩
      · cases hs : p.sign <;>
          simp [floating_point_class, e1, e2, is_sign_negative, hs]
      · intro c
        cases c <;> cases hs : p.sign <;>
          simp [classPred, floating_point_class, e1, e2, e3, e4, e5,
            is_signaling_nan, is_sign_negative, hs]
    · -- NaN
      have e1 : is_nan p = true := by simp [is_nan, h255, hm0]
      refine ⟨⟨.quietNaN, ?_⟩, ?_⟩
      · simp [floating_point_class, e1, is_signaling_nan]
      · intro c
        cases c <;>
          simp [classPred, floating_point_class, e1, is_signaling_nan,
            is_infinite, is_zero, is_normal, is_subnormal, h255, hm0, f32eq,
            is_nan]
  · have e1 : is_nan p = false := by simp [is_nan, h255]
    have e2 : is_infinite p = false := by simp [is_infinite, h255]
    by_cases h0 : p.ex = 0
    · by_cases hm0 : p.man = 0
      · -- ±zero
        have e3 : is_zero p = true := (is_zero_iff p).2 ⟨h0, hm0⟩
        have e4 : is_normal p = false := by simp [is_normal, h0]
        have e5 : is_subnormal p = false := by simp [is_subnormal, hm0]
        refine ⟨⟨if p.sign then .negativeZero else .positiveZero, ?_⟩, ?_⟩
        · cases hs : p.sign <;>
            simp [floating_point_class, e1, e2, e3, is_sign_negative, hs]
        · intro c
          cases c <;> cases hs : p.sign <;>
            simp [classPred, floating_point_class, e1, e2, e3, e4, e5,
              is_signaling_nan, is_sign_negative, hs]
      · -- ±subnormal
        have e3 : is_zero p = false := by
          cases hz : is_zero p
          · rfl
          · exact absurd ((is_zero_iff p).1 hz).2 hm0
        have e4 : is_normal p = false := by simp [is_normal, h0]
        have e5 : is_subnormal p = true := by simp [is_subnormal, h0, hm0]
        refine ⟨⟨if p.sign then .negativeSubnormal else .positiveSubnormal, ?_⟩, ?_⟩
        · cases hs : p.sign <;>
            simp [floating_point_class, e1, e2, e3, e4, e5, is_sign_negative, hs]
        · intro c
          cases c <;> cases hs : p.sign <;>
            simp [classPred, floating_point_class, e1, e2, e3, e4, e5,
              is_signaling_nan, is_sign_negative, hs]
    · -- ±normal
      have e3 : is_zero p = false := by
        cases hz : is_zero p
        · rfl
        · exact absurd ((is_zero_iff p).1 hz).1 h0
      have e4 : is_normal p = true := by simp [is_normal, h0, h255]
      have e5 : is_subnormal p = false := by simp [is_subnormal, h0]
      refine ⟨⟨if p.sign then .negativeNormal else .positiveNormal, ?_⟩, ?_⟩
      · cases hs : p.sign <;>
          simp [floating_point_class, e1, e2, e3, e4, is_sign_negative, hs]
      · intro c
        cases c <;> cases hs : p.sign <;>
          simp [classPred, floating_point_class, e1, e2, e3, e4, e5,
            is_signaling_nan, is_sign_negative, hs]

/-- Witness for C1 at a negative subnormal pattern. -/
theorem c1_witness :
    WF ⟨true, 0, 5⟩ ∧
    ((∃ c, floating_point_class ⟨true, 0, 5⟩ = some c) ∧
     (∀ c, classPred c ⟨true, 0, 5⟩ = true ↔
        floating_point_class ⟨true, 0, 5⟩ = some c)) :=
  ⟨by decide, c1_floating_point_class ⟨true, 0, 5⟩ (by decide)⟩

/-! ### Bit-stepping lemmas for C2 -/

lemma from_bits_mk (s : Bool) (e m : Nat) (he : e < 256) (hm : m < 2 ^ 23) :
    from_bits ((if s then 2 ^ 31 else 0) + e * 2 ^ 23 + m) = ⟨s, e, m⟩ := by
  have p23 : (2 : ℕ) ^ 23 = 8388608 := by norm_num
  have p31 : (2 : ℕ) ^ 31 = 2147483648 := by norm_num
  have p32 : (2 : ℕ) ^ 32 = 4294967296 := by norm_num
  unfold from_bits
  rw [F32.mk.injEq]
  cases s <;> simp only [if_true, if_false, Bool.false_eq_true, p23, p31, p32] at *
  · refine ⟨?_, by omega, by omega⟩
    apply decide_eq_false
    omega
  · refine ⟨?_, by omega, by omega⟩
    apply decide_eq_true
    omega

lemma is_nan_mk_false (s : Bool) (e m : Nat) (h : e ≠ 255) :
    is_nan ⟨s, e, m⟩ = false := by
  simp [is_nan, h]

lemma is_infinite_mk_false (s : Bool) (e m : Nat) (h : e ≠ 255) :
    is_infinite ⟨s, e, m⟩ = false := by
  simp [is_infinite, h]

lemma f32lt_finite (a b : F32) (ha1 : is_nan a = false) (ha2 : is_infinite a = false)
    (hb1 : is_nan b = false) (hb2 : is_infinite b = false) :
    f32lt a b = decide (sgmag a < sgmag b) := by
  simp [f32lt, ha1, ha2, hb1, hb2]

lemma f32lt_posInf (a : F32) (h1 : is_nan a = false) (h2 : is_infinite a = false) :
    f32lt a posInf = true := by
  have hb1 : is_nan posInf = false := rfl
  have hb2 : is_infinite posInf = true := rfl
  have hs : posInf.sign = false := rfl
  simp [f32lt, h1, h2, hb1, hb2, hs]

lemma f32lt_negInf (b : F32) (h1 : is_nan b = false) (h2 : is_infinite b = false) :
    f32lt negInf b = true := by
  have ha1 : is_nan negInf = false := rfl
  have ha2 : is_infinite negInf = true := rfl
  have hs : negInf.sign = true := rfl
  simp [f32lt, ha1, ha2, h1, h2, hs]

lemma mag_mono_man (s t : Bool) (e m : Nat) : mag ⟨s, e, m⟩ < mag ⟨t, e, m + 1⟩ := by
  unfold mag
  simp only
  have hp : 0 < (2 : ℕ) ^ (max e 1) := Nat.pos_pow_of_pos _ (by norm_num)
  exact Nat.mul_lt_mul_of_lt_of_le (by omega) (Nat.le_refl _) hp

lemma mag_boundary (s t : Bool) (e : Nat) :
    mag ⟨s, e, 2 ^ 23 - 1⟩ < mag ⟨t, e + 1, 0⟩ := by
  unfold mag
  by_cases h0 : e = 0
  · subst h0; norm_num
  · have hmax : max e 1 = e := by omega
    have hmax2 : max (e + 1) 1 = e + 1 := by omega
    simp only [if_neg h0, Nat.succ_ne_zero, if_false, hmax, hmax2]
    rw [pow_succ]
    have hp : 0 < (2 : ℕ) ^ e := Nat.pos_pow_of_pos _ (by norm_num)
    calc (2 ^ 23 - 1 + 2 ^ 23) * 2 ^ e
        < (2 ^ 23 * 2) * 2 ^ e := by
          exact Nat.mul_lt_mul_of_lt_of_le (by norm_num) (Nat.le_refl _) hp
      _ = (0 + 2 ^ 23) * (2 ^ e * 2) := by ring

lemma sgmag_lt_pos (a b : F32) (ha : a.sign = false) (hb : b.sign = false)
    (h : mag a < mag b) : sgmag a < sgmag b := by
  rw [sgmag_of_pos _ ha, sgmag_of_pos _ hb]
  exact_mod_cast h

lemma sgmag_lt_neg (a b : F32) (ha : a.sign = true) (hb : b.sign = true)
    (h : mag b < mag a) : sgmag a < sgmag b := by
  rw [sgmag_of_neg _ ha, sgmag_of_neg _ hb]
  omega

/-- C2, amended: for every finite nonzero value (excluding the zeros, at
which the source returns the input unchanged), `next_up` is strictly above
and `next_down` strictly below the input in the IEEE ordering; at the
extrema the step lands on the like-signed infinity, which still compares
strictly. -/
theorem c2_next_up_down (p : F32) (hwf : WF p) (h1 : is_nan p = false)
    (h2 : is_infinite p = false) (h3 : is_zero p = false) :
    f32gt (next_up p) p = true ∧ f32lt (next_down p) p = true := by
  rcases p with ⟨s, e, m⟩
  have hwe : e < 256 := hwf.1
  have hwm : m < 2 ^ 23 := hwf.2
  have he255 : e ≠ 255 := by
    rcases finite_ex_le _ h1 h2 with h | h
    · have : e ≤ 254 := h; omega
    · have : 256 ≤ e := h; omega
  have hz : ¬(e = 0 ∧ m = 0) := by
    intro hc
    have hzt : is_zero ⟨s, e, m⟩ = true := (is_zero_iff ⟨s, e, m⟩).2 ⟨hc.1, hc.2⟩
    rw [h3] at hzt
    cases hzt
  have hzeq : f32eq ⟨s, e, m⟩ posZero = false := h3
  cases s
  · have hup : next_up ⟨false, e, m⟩ = from_bits (to_bits ⟨false, e, m⟩ + 1) := by
      simp [next_up, h1, h2, hzeq, is_sign_negative]
    have hdn : next_down ⟨false, e, m⟩ = from_bits (to_bits ⟨false, e, m⟩ - 1) := by
      simp [next_down, h1, h2, hzeq, is_sign_negative]
    have htb : to_bits ⟨false, e, m⟩ = e * 2 ^ 23 + m := by simp [to_bits]
    constructor
    · by_cases hm23 : m + 1 = 2 ^ 23
      · have harg : to_bits ⟨false, e, m⟩ + 1 =
            (if (false : Bool) then 2 ^ 31 else 0) + (e + 1) * 2 ^ 23 + 0 := by
          rw [htb]; simp <;> omega
        rw [hup, harg, from_bits_mk false (e + 1) 0 (by omega) (by norm_num)]
        by_cases hinf : e + 1 = 255
        · rw [hinf]
          show f32lt ⟨false, e, m⟩ posInf = true
          exact f32lt_posInf _ h1 h2
        · show f32lt ⟨false, e, m⟩ ⟨false, e + 1, 0⟩ = true
          rw [f32lt_finite _ _ h1 h2 (is_nan_mk_false _ _ _ hinf)
            (is_infinite_mk_false _ _ _ hinf)]
          apply decide_eq_true
          apply sgmag_lt_pos _ _ rfl rfl
          have hm' : m = 2 ^ 23 - 1 := by omega
          rw [hm']
          exact mag_boundary false false e
      · have harg : to_bits ⟨false, e, m⟩ + 1 =
            (if (false : Bool) then 2 ^ 31 else 0) + e * 2 ^ 23 + (m + 1) := by
          rw [htb]; simp <;> omega
        rw [hup, harg, from_bits_mk false e (m + 1) (by omega) (by omega)]
        show f32lt ⟨false, e, m⟩ ⟨false, e, m + 1⟩ = true
        rw [f32lt_finite _ _ h1 h2 (is_nan_mk_false _ _ _ he255)
          (is_infinite_mk_false _ _ _ he255)]
        apply decide_eq_true
        exact sgmag_lt_pos _ _ rfl rfl (mag_mono_man _ _ _ _)
    · by_cases hm0 : m = 0
      · have he1 : 1 ≤ e := by omega
        have harg : to_bits ⟨false, e, m⟩ - 1 =
            (if (false : Bool) then 2 ^ 31 else 0) + (e - 1) * 2 ^ 23 + (2 ^ 23 - 1) := by
          rw [htb]; simp [hm0] <;> omega
        rw [hdn, harg, from_bits_mk false (e - 1) (2 ^ 23 - 1) (by omega) (by omega)]
        show f32lt ⟨false, e - 1, 2 ^ 23 - 1⟩ ⟨false, e, m⟩ = true
        rw [f32lt_finite _ _ (is_nan_mk_false _ _ _ (by omega))
          (is_infinite_mk_false _ _ _ (by omega)) h1 h2]
        apply decide_eq_true
        apply sgmag_lt_pos _ _ rfl rfl
        have hb := mag_boundary false false (e - 1)
        have he' : e - 1 + 1 = e := by omega
        rw [he'] at hb
        rw [hm0]
        exact hb
      · have harg : to_bits ⟨false, e, m⟩ - 1 =
            (if (false : Bool) then 2 ^ 31 else 0) + e * 2 ^ 23 + (m - 1) := by
          rw [htb]; simp <;> omega
        rw [hdn, harg, from_bits_mk false e (m - 1) (by omega) (by omega)]
        show f32lt ⟨false, e, m - 1⟩ ⟨false, e, m⟩ = true
        rw [f32lt_finite _ _ (is_nan_mk_false _ _ _ he255)
          (is_infinite_mk_false _ _ _ he255) h1 h2]
        apply decide_eq_true
        apply sgmag_lt_pos _ _ rfl rfl
        have hb := mag_mono_man false false e (m - 1)
        have hm' : m - 1 + 1 = m := by omega
        rw [hm'] at hb
        exact hb
  · have hup : next_up ⟨true, e, m⟩ = from_bits (to_bits ⟨true, e, m⟩ - 1) := by
      simp [next_up, h1, h2, hzeq, is_sign_negative]
    have hdn : next_down ⟨true, e, m⟩ = from_bits (to_bits ⟨true, e, m⟩ + 1) := by
      simp [next_down, h1, h2, hzeq, is_sign_negative]
    have htb : to_bits ⟨true, e, m⟩ = 2 ^ 31 + e * 2 ^ 23 + m := by simp [to_bits]
    constructor
    · by_cases hm0 : m = 0
      · have he1 : 1 ≤ e := by omega
        have harg : to_bits ⟨true, e, m⟩ - 1 =
            (if (true : Bool) then 2 ^ 31 else 0) + (e - 1) * 2 ^ 23 + (2 ^ 23 - 1) := by
          rw [htb]; simp [hm0] <;> omega
        rw [hup, harg, from_bits_mk true (e - 1) (2 ^ 23 - 1) (by omega) (by omega)]
        show f32lt ⟨true, e, m⟩ ⟨true, e - 1, 2 ^ 23 - 1⟩ = true
        rw [f32lt_finite _ _ h1 h2 (is_nan_mk_false _ _ _ (by omega))
          (is_infinite_mk_false _ _ _ (by omega))]
        apply decide_eq_true
        apply sgmag_lt_neg _ _ rfl rfl
        have hb := mag_boundary true true (e - 1)
        have he' : e - 1 + 1 = e := by omega
        rw [he'] at hb
        rw [hm0]
        exact hb
      · have harg : to_bits ⟨true, e, m⟩ - 1 =
            (if (true : Bool) then 2 ^ 31 else 0) + e * 2 ^ 23 + (m - 1) := by
          rw [htb]; simp <;> omega
        rw [hup, harg, from_bits_mk true e (m - 1) (by omega) (by omega)]
        show f32lt ⟨true, e, m⟩ ⟨true, e, m - 1⟩ = true
        rw [f32lt_finite _ _ h1 h2 (is_nan_mk_false _ _ _ he255)
          (is_infinite_mk_false _ _ _ he255)]
        apply decide_eq_true
        apply sgmag_lt_neg _ _ rfl rfl
        have hb := mag_mono_man true true e (m - 1)
        have hm' : m - 1 + 1 = m := by omega
        rw [hm'] at hb
        exact hb
    · by_cases hm23 : m + 1 = 2 ^ 23
      · have harg : to_bits ⟨true, e, m⟩ + 1 =
            (if (true : Bool) then 2 ^ 31 else 0) + (e + 1) * 2 ^ 23 + 0 := by
          rw [htb]; simp <;> omega
        rw [hdn, harg, from_bits_mk true (e + 1) 0 (by omega) (by norm_num)]
        by_cases hinf : e + 1 = 255
        · rw [hinf]
          show f32lt negInf ⟨true, e, m⟩ = true
          exact f32lt_negInf _ h1 h2
        · show f32lt ⟨true, e + 1, 0⟩ ⟨true, e, m⟩ = true
          rw [f32lt_finite _ _ (is_nan_mk_false _ _ _ hinf)
            (is_infinite_mk_false _ _ _ hinf) h1 h2]
          apply decide_eq_true
          apply sgmag_lt_neg _ _ rfl rfl
          have hm' : m = 2 ^ 23 - 1 := by omega
          rw [hm']
          exact mag_boundary true true e
      · have harg : to_bits ⟨true, e, m⟩ + 1 =
            (if (true : Bool) then 2 ^ 31 else 0) + e * 2 ^ 23 + (m + 1) := by
          rw [htb]; simp <;> omega
        rw [hdn, harg, from_bits_mk true e (m + 1) (by omega) (by omega)]
        show f32lt ⟨true, e, m + 1⟩ ⟨true, e, m⟩ = true
        rw [f32lt_finite _ _ (is_nan_mk_false _ _ _ he255)
          (is_infinite_mk_false _ _ _ he255) h1 h2]
        apply decide_eq_true
        exact sgmag_lt_neg _ _ rfl rfl (mag_mono_man _ _ _ _)

/-- Witness for C2 at the pattern of `1.0_f32`. -/
theorem c2_witness :
    WF one ∧ is_nan one = false ∧ is_infinite one = false ∧ is_zero one = false ∧
    (f32gt (next_up one) one = true ∧ f32lt (next_down one) one = true) :=
  ⟨by decide, by decide, by decide, by decide,
   c2_next_up_down one (by decide) (by decide) (by decide) (by decide)⟩

/-! ### Correctness of the integer rounding pipeline (for C4) -/

lemma lg_le_one (fuel n : Nat) (h : n ≤ 1) : lg fuel n = 0 := by
  cases fuel <;> simp [lg, h]

lemma lg_spec (fuel : Nat) : ∀ n, 0 < n → n < 2 ^ fuel →
    2 ^ lg fuel n ≤ n ∧ n < 2 ^ (lg fuel n + 1) := by
  induction fuel with
  | zero => intro n h0 h1; simp at h1; omega
  | succ f ih =>
      intro n h0 h1
      by_cases hn : n ≤ 1
      · have : n = 1 := by omega
        subst this
        simp [lg]
      · have h2 : 2 ≤ n := by omega
        have hp : 2 ^ (f + 1) = 2 * 2 ^ f := by rw [pow_succ]; ring
        have hrec := ih (n / 2) (by omega) (by omega)
        obtain ⟨la, lb⟩ := hrec
        have hstep : lg (f + 1) n = lg f (n / 2) + 1 := by
          simp [lg, hn]
        rw [hstep]
        have e1 : 2 ^ (lg f (n / 2) + 1) = 2 * 2 ^ lg f (n / 2) := by rw [pow_succ]; ring
        have e2 : 2 ^ (lg f (n / 2) + 1 + 1) = 2 * 2 ^ (lg f (n / 2) + 1) := by
          rw [pow_succ]; ring
        omega

lemma log2n_spec (n : Nat) (h0 : 0 < n) (h1 : n < 2 ^ 600) :
    2 ^ log2n n ≤ n ∧ n < 2 ^ (log2n n + 1) :=
  lg_spec 600 n h0 h1

lemma log2n_unique (n k : Nat) (hk : k ≤ 599) (h1 : 2 ^ k ≤ n) (h2 : n < 2 ^ (k + 1)) :
    log2n n = k := by
  have h0 : 0 < n := lt_of_lt_of_le (Nat.pos_pow_of_pos _ (by norm_num)) h1
  have hn : n < 2 ^ 600 :=
    lt_of_lt_of_le h2 (Nat.pow_le_pow_right (by norm_num) (by omega))
  obtain ⟨la, lb⟩ := log2n_spec n h0 hn
  have hj1 : log2n n < k + 1 := by
    rw [← Nat.pow_lt_pow_iff_right (a := 2) (by norm_num)]
    exact lt_of_le_of_lt la h2
  have hj2 : k < log2n n + 1 := by
    rw [← Nat.pow_lt_pow_iff_right (a := 2) (by norm_num)]
    exact lt_of_le_of_lt h1 lb
  omega

lemma rneN_exact (a d : Nat) (hd : 0 < d) : rneN (a * d) d = a := by
  unfold rneN
  have h1 : a * d / d = a := Nat.mul_div_cancel a hd
  simp only [h1, Nat.sub_self, Nat.mul_zero, hd, if_pos]

lemma rneN_scale (n d k : Nat) (hk : 0 < k) : rneN (n * k) (d * k) = rneN n d := by
  unfold rneN
  have h1 : n * k / (d * k) = n / d := by
    rw [Nat.mul_comm n k, Nat.mul_comm d k, Nat.mul_div_mul_left _ _ hk]
  simp only [h1]
  have h2 : n * k - n / d * (d * k) = (n - n / d * d) * k := by
    rw [← Nat.mul_assoc, Nat.sub_mul]
  rw [h2]
  have c1 : (2 * ((n - n / d * d) * k) < d * k) ↔ (2 * (n - n / d * d) < d) := by
    rw [show 2 * ((n - n / d * d) * k) = 2 * (n - n / d * d) * k by ring]
    exact Nat.mul_lt_mul_right hk
  have c2 : (d * k < 2 * ((n - n / d * d) * k)) ↔ (d < 2 * (n - n / d * d)) := by
    rw [show 2 * ((n - n / d * d) * k) = 2 * (n - n / d * d) * k by ring]
    exact Nat.mul_lt_mul_right hk
  by_cases hlt : 2 * (n - n / d * d) < d
  · rw [if_pos (c1.2 hlt), if_pos hlt]
  · rw [if_neg (fun hc => hlt (c1.1 hc)), if_neg hlt]
    by_cases hgt : d < 2 * (n - n / d * d)
    · rw [if_pos (c2.2 hgt), if_pos hgt]
    · rw [if_neg (fun hc => hgt (c2.1 hc)), if_neg hgt]

lemma expFor_scale (n d k : Nat) (hk : 0 < k) : expFor (n * k) (d * k) = expFor n d := by
  unfold expFor
  have h1 : n * k * 2 ^ 127 / (d * k) = n * 2 ^ 127 / d := by
    rw [show n * k * 2 ^ 127 = k * (n * 2 ^ 127) by ring, show d * k = k * d by ring,
      Nat.mul_div_mul_left _ _ hk]
  rw [h1]

lemma roundPos_scale (s : Bool) (n d k : Nat) (hk : 0 < k) :
    roundPos s (n * k) (d * k) = roundPos s n d := by
  simp only [roundPos, expFor_scale n d k hk]
  have h1 : n * k * 2 ^ 150 = n * 2 ^ 150 * k := by ring
  have h2 : d * k * 2 ^ expFor n d = d * 2 ^ expFor n d * k := by ring
  rw [h1, h2, rneN_scale _ _ _ hk]

lemma RN_scale (s : Bool) (n d k : Nat) (hk : 0 < k) :
    RN s (n * k) (d * k) = RN s n d := by
  unfold RN
  have : n * k = 0 ↔ n = 0 := by
    constructor
    · intro h; rcases Nat.mul_eq_zero.1 h with h | h; exact h; omega
    · intro h; rw [h]; ring
  by_cases h : n = 0
  · rw [if_pos (this.2 h), if_pos h]
  · rw [if_neg (fun hc => h (this.1 hc)), if_neg h, roundPos_scale s n d k hk]

lemma expFor_canonical (p : F32) (hwf : WF p) (he : p.ex ≤ 254) (hnz : mag p ≠ 0) :
    expFor (mag p) (2 ^ 150) = max p.ex 1 := by
  unfold expFor
  have hdiv : mag p * 2 ^ 127 / 2 ^ 150 = mag p / 2 ^ 23 := by
    rw [show (2 : ℕ) ^ 150 = 2 ^ 127 * 2 ^ 23 by norm_num,
      show mag p * 2 ^ 127 = 2 ^ 127 * mag p by ring,
      Nat.mul_div_mul_left _ _ (by norm_num : 0 < (2 : ℕ) ^ 127)]
  rw [hdiv]
  have hm : p.man < 2 ^ 23 := hwf.2
  by_cases h0 : p.ex = 0
  · have hmag : mag p = p.man * 2 := by unfold mag; rw [h0]; simp
    rw [hmag]
    have hle : p.man * 2 / 2 ^ 23 ≤ 1 := by omega
    have hlg : log2n (p.man * 2 / 2 ^ 23) = 0 := lg_le_one _ _ hle
    rw [hlg, h0]
    norm_num
  · have he1 : 1 ≤ p.ex := by omega
    have hmax : max p.ex 1 = p.ex := by omega
    have hmag : mag p = (p.man + 2 ^ 23) * 2 ^ p.ex := by
      unfold mag; rw [if_neg h0, hmax]
    have hpow : 0 < (2 : ℕ) ^ p.ex := Nat.pos_pow_of_pos _ (by norm_num)
    have hlow : 2 ^ p.ex ≤ (p.man + 2 ^ 23) * 2 ^ p.ex / 2 ^ 23 := by
      have h1 : 2 ^ 23 * 2 ^ p.ex ≤ (p.man + 2 ^ 23) * 2 ^ p.ex :=
        Nat.mul_le_mul_right _ (by omega)
      have h2 : 2 ^ 23 * 2 ^ p.ex / 2 ^ 23 = 2 ^ p.ex :=
        Nat.mul_div_cancel_left _ (by norm_num)
      calc 2 ^ p.ex = 2 ^ 23 * 2 ^ p.ex / 2 ^ 23 := h2.symm
        _ ≤ (p.man + 2 ^ 23) * 2 ^ p.ex / 2 ^ 23 := Nat.div_le_div_right h1
    have hhigh : (p.man + 2 ^ 23) * 2 ^ p.ex / 2 ^ 23 < 2 ^ (p.ex + 1) := by
      apply Nat.div_lt_of_lt_mul
      calc (p.man + 2 ^ 23) * 2 ^ p.ex < 2 ^ 24 * 2 ^ p.ex :=
            Nat.mul_lt_mul_of_lt_of_le (by omega) (Nat.le_refl _) hpow
        _ = 2 ^ 23 * 2 ^ (p.ex + 1) := by rw [pow_succ]; ring
    rw [hmag, log2n_unique _ _ (by omega) hlow hhigh, hmax]
    omega

lemma roundPos_canonical (p : F32) (hwf : WF p) (he : p.ex ≤ 254) (hnz : mag p ≠ 0) :
    roundPos p.sign (mag p) (2 ^ 150) = p := by
  simp only [roundPos]
  rw [expFor_canonical p hwf he hnz]
  have hm : p.man < 2 ^ 23 := hwf.2
  have hM : mag p * 2 ^ 150 =
      (p.man + if p.ex = 0 then 0 else 2 ^ 23) * (2 ^ 150 * 2 ^ (max p.ex 1)) := by
    unfold mag; ring
  rw [hM, rneN_exact _ _ (by positivity)]
  by_cases h0 : p.ex = 0
  · rw [if_neg (by simp [h0]; omega), if_neg (by simp [h0]; omega)]
    rcases p with ⟨s, e, m⟩
    simp only at h0
    subst h0
    simp
  · have hmax : max p.ex 1 = p.ex := by omega
    rw [if_neg (by rw [if_neg h0]; omega), if_pos (by rw [if_neg h0]; omega)]
    rcases p with ⟨s, e, m⟩
    simp only at h0 hmax ⊢
    rw [if_neg h0, hmax]
    have hmm : m + 2 ^ 23 - 2 ^ 23 = m := by omega
    rw [hmm]

lemma RN_canonical (p : F32) (hwf : WF p) (he : p.ex ≤ 254) (hnz : mag p ≠ 0) :
    RN p.sign (mag p) (2 ^ 150) = p := by
  unfold RN
  rw [if_neg hnz]
  exact roundPos_canonical p hwf he hnz

lemma pOfNat_spec (s : Bool) (n : Nat) (h1 : 0 < n) (h2 : n ≤ 2 ^ 24) :
    WF (pOfNat s n) ∧ (pOfNat s n).ex ≤ 254 ∧ (pOfNat s n).sign = s ∧
    mag (pOfNat s n) = n * 2 ^ 150 := by
  unfold pOfNat
  rw [if_neg (by omega)]
  obtain ⟨hlo, hhi⟩ := log2n_spec n h1 (by
    calc n ≤ 2 ^ 24 := h2
      _ < 2 ^ 600 := by norm_num)
  set L := log2n n with hL
  have hL24 : L ≤ 24 := by
    by_contra hc
    push_neg at hc
    have : 2 ^ 25 ≤ 2 ^ L := Nat.pow_le_pow_right (by norm_num) (by omega)
    have : (2 : ℕ) ^ 25 ≤ n := le_trans this hlo
    omega
  have hman : (n - 2 ^ L) * 2 ^ (23 - L) < 2 ^ 23 := by
    by_cases hL23 : L ≤ 23
    · have hsucc : 2 ^ (L + 1) = 2 * 2 ^ L := by rw [pow_succ]; ring
      have hnL : n - 2 ^ L < 2 ^ L := by omega
      calc (n - 2 ^ L) * 2 ^ (23 - L) < 2 ^ L * 2 ^ (23 - L) :=
            Nat.mul_lt_mul_of_lt_of_le hnL (Nat.le_refl _)
              (Nat.pos_pow_of_pos _ (by norm_num))
        _ = 2 ^ 23 := by rw [← pow_add]; congr 1; omega
    · have hL4 : L = 24 := by omega
      have h24 : (2 : ℕ) ^ 24 ≤ n := by rw [← hL4]; exact hlo
      have hn : n = 2 ^ 24 := by omega
      rw [hL4, hn]
      norm_num
  refine ⟨⟨by simp; omega, hman⟩, by simp; omega, rfl, ?_⟩
  unfold mag
  simp only
  rw [if_neg (by omega)]
  have hmax : max (127 + L) 1 = 127 + L := by omega
  rw [hmax]
  by_cases hL23 : L ≤ 23
  · have e1 : (2 : ℕ) ^ (23 - L) * 2 ^ (127 + L) = 2 ^ 150 := by
      rw [← pow_add]; congr 1; omega
    have e2 : (2 : ℕ) ^ 23 * 2 ^ (127 + L) = 2 ^ L * 2 ^ 150 := by
      rw [← pow_add, ← pow_add]; congr 1; omega
    calc ((n - 2 ^ L) * 2 ^ (23 - L) + 2 ^ 23) * 2 ^ (127 + L)
        = (n - 2 ^ L) * (2 ^ (23 - L) * 2 ^ (127 + L)) + 2 ^ 23 * 2 ^ (127 + L) := by
          ring
      _ = (n - 2 ^ L) * 2 ^ 150 + 2 ^ L * 2 ^ 150 := by rw [e1, e2]
      _ = ((n - 2 ^ L) + 2 ^ L) * 2 ^ 150 := by ring
      _ = n * 2 ^ 150 := by
          congr 1
          omega
  · have hL4 : L = 24 := by omega
    have h24 : (2 : ℕ) ^ 24 ≤ n := by rw [← hL4]; exact hlo
    have hn : n = 2 ^ 24 := by omega
    rw [hL4, hn]
    norm_num

lemma is_nan_of_ex (p : F32) (h : p.ex ≠ 255) : is_nan p = false := by
  simp [is_nan, h]

lemma is_infinite_of_ex (p : F32) (h : p.ex ≠ 255) : is_infinite p = false := by
  simp [is_infinite, h]

lemma sgmag_natAbs (p : F32) : (sgmag p).natAbs = mag p := by
  unfold sgmag
  cases p.sign <;> simp

lemma sgmag_neg_iff (p : F32) (h : mag p ≠ 0) : sgmag p < 0 ↔ p.sign = true := by
  unfold sgmag
  cases hs : p.sign <;> simp <;> omega

lemma as_f32_zero : as_f32 0 = posZero := by decide

lemma as_f32_small (t : ℤ) (h2 : t.natAbs ≤ 2 ^ 24) :
    is_nan (as_f32 t) = false ∧ is_infinite (as_f32 t) = false ∧
    WF (as_f32 t) ∧ (as_f32 t).ex ≤ 254 ∧ sgmag (as_f32 t) = t * 2 ^ 150 := by
  by_cases h0 : t = 0
  · subst h0
    rw [as_f32_zero]
    refine ⟨rfl, rfl, by decide, by decide, by decide⟩
  · have hpos : 0 < t.natAbs := Int.natAbs_pos.2 h0
    obtain ⟨hwf, hex, hsign, hmag⟩ := pOfNat_spec (decide (t < 0)) t.natAbs hpos h2
    have hc := RN_canonical (pOfNat (decide (t < 0)) t.natAbs) hwf hex
      (by rw [hmag]; positivity)
    rw [hsign, hmag] at hc
    have heq : as_f32 t = pOfNat (decide (t < 0)) t.natAbs := by
      unfold as_f32
      have h150 : (0 : ℕ) < 2 ^ 150 := by positivity
      calc RN (decide (t < 0)) t.natAbs 1
          = RN (decide (t < 0)) (t.natAbs * 2 ^ 150) (1 * 2 ^ 150) :=
            (RN_scale _ _ _ _ h150).symm
        _ = RN (decide (t < 0)) (t.natAbs * 2 ^ 150) (2 ^ 150) := by rw [one_mul]
        _ = pOfNat (decide (t < 0)) t.natAbs := hc
    rw [heq]
    refine ⟨is_nan_of_ex _ (by omega), is_infinite_of_ex _ (by omega), hwf, hex, ?_⟩
    unfold sgmag
    rw [hmag, hsign]
    by_cases ht : t < 0
    · rw [decide_eq_true ht, if_pos rfl]
      push_cast
      rw [abs_of_neg ht]; ring
    · rw [decide_eq_false ht, if_neg (by simp)]
      push_cast
      rw [abs_of_nonneg (not_lt.1 ht)]; ring

lemma f32eq_finite (a b : F32) (ha1 : is_nan a = false) (ha2 : is_infinite a = false)
    (hb1 : is_nan b = false) (hb2 : is_infinite b = false) :
    f32eq a b = decide (sgmag a = sgmag b) := by
  simp [f32eq, ha1, ha2, hb1, hb2]

lemma f32ge_zero (p : F32) (h1 : is_nan p = false) (h2 : is_infinite p = false) :
    f32ge p posZero = decide (0 ≤ sgmag p) := by
  unfold f32ge f32le
  rw [f32lt_finite posZero p rfl rfl h1 h2, f32eq_finite posZero p rfl rfl h1 h2,
    sgmag_posZero]
  rcases lt_trichotomy (0 : ℤ) (sgmag p) with h | h | h
  · simp [h, le_of_lt h]
  · simp [← h]
  · have hne : (0 : ℤ) ≠ sgmag p := ne_of_gt h
    simp [not_lt_of_gt h, hne, not_le_of_gt h]

lemma fadd_finite (a b : F32) (ha1 : is_nan a = false) (ha2 : is_infinite a = false)
    (hb1 : is_nan b = false) (hb2 : is_infinite b = false) :
    fadd a b = (if sgmag a + sgmag b = 0 then
      (if mag a = 0 && mag b = 0 && a.sign && b.sign then negZero else posZero)
      else RN (decide (sgmag a + sgmag b < 0)) (sgmag a + sgmag b).natAbs (2 ^ 150)) := by
  simp [fadd, ha1, ha2, hb1, hb2]

lemma fsub_finite (a b : F32) (ha1 : is_nan a = false) (ha2 : is_infinite a = false)
    (hb1 : is_nan b = false) (hb2 : is_infinite b = false) :
    fsub a b = (if sgmag a - sgmag b = 0 then
      (if mag a = 0 && mag b = 0 && a.sign && !b.sign then negZero else posZero)
      else RN (decide (sgmag a - sgmag b < 0)) (sgmag a - sgmag b).natAbs (2 ^ 150)) := by
  simp [fsub, ha1, ha2, hb1, hb2]

lemma RN_div150 (t : ℤ) (k : ℤ) (hk : t = k * 2 ^ 150) :
    RN (decide (t < 0)) t.natAbs (2 ^ 150) = as_f32 k := by
  subst hk
  unfold as_f32
  have h1 : (k * 2 ^ 150).natAbs = k.natAbs * 2 ^ 150 := by
    rw [Int.natAbs_mul]
    norm_num
  have h2 : decide (k * 2 ^ 150 < 0) = decide (k < 0) := by
    have hp : (0 : ℤ) < 2 ^ 150 := by positivity
    by_cases hc : k < 0
    · rw [decide_eq_true (mul_neg_of_neg_of_pos hc hp), decide_eq_true hc]
    · push_neg at hc
      rw [decide_eq_false (not_lt.2 (mul_nonneg hc (le_of_lt hp))),
        decide_eq_false (not_lt.2 hc)]
  rw [h1, h2]
  have hs := RN_scale (decide (k < 0)) k.natAbs 1 (2 ^ 150) (by positivity)
  rw [one_mul] at hs
  exact hs

lemma fadd_posZero (p : F32) (hwf : WF p) (h1 : is_nan p = false)
    (h2 : is_infinite p = false) (he : p.ex ≤ 254) :
    fadd p posZero = if mag p = 0 then posZero else p := by
  rw [fadd_finite p posZero h1 h2 rfl rfl, sgmag_posZero, add_zero]
  by_cases h0 : mag p = 0
  · rw [if_pos ((sgmag_eq_zero p).2 h0), if_pos h0]
    simp [show posZero.sign = false from rfl]
  · rw [if_neg (fun hc => h0 ((sgmag_eq_zero p).1 hc)), if_neg h0]
    have hdec : decide (sgmag p < 0) = p.sign := by
      by_cases hs : sgmag p < 0
      · simp [hs, ((sgmag_neg_iff p h0).1 hs).symm]
      · simp [hs]
        cases hps : p.sign
        · rfl
        · exact absurd ((sgmag_neg_iff p h0).2 hps) hs
    rw [sgmag_natAbs, hdec]
    exact RN_canonical p hwf he h0

lemma bnt {b : Bool} (h : b = false) : ¬b = true := by simp [h]

lemma mag_dvd_of_big (p : F32) (hwf : WF p) (hbig : 2 ^ 174 ≤ mag p) :
    mag p % 2 ^ 150 = 0 := by
  have hm : p.man < 2 ^ 23 := hwf.2
  have hM : p.man + (if p.ex = 0 then 0 else 2 ^ 23) < 2 ^ 24 := by
    by_cases h : p.ex = 0 <;> simp [h] <;> omega
  have hE : 151 ≤ max p.ex 1 := by
    by_contra hc
    push_neg at hc
    have hp : 0 < (2 : ℕ) ^ (max p.ex 1) := Nat.pos_pow_of_pos _ (by norm_num)
    have h1 : mag p < 2 ^ 24 * 2 ^ (max p.ex 1) := by
      unfold mag
      exact Nat.mul_lt_mul_of_lt_of_le hM (Nat.le_refl _) hp
    have h2 : (2 : ℕ) ^ (max p.ex 1) ≤ 2 ^ 150 :=
      Nat.pow_le_pow_right (by norm_num) (by omega)
    have h3 : mag p < 2 ^ 174 := by
      calc mag p < 2 ^ 24 * 2 ^ (max p.ex 1) := h1
        _ ≤ 2 ^ 24 * 2 ^ 150 := Nat.mul_le_mul_left _ h2
        _ = 2 ^ 174 := by norm_num
    omega
  have hdvd : (2 : ℕ) ^ 150 ∣ mag p := by
    unfold mag
    exact Dvd.dvd.mul_left (pow_dvd_pow 2 (by omega)) _
  omega

lemma mag_eq_2pow181 (p : F32) (hwf : WF p) (h : mag p = 2 ^ 181) :
    p.ex = 158 ∧ p.man = 0 := by
  have hm : p.man < 2 ^ 23 := hwf.2
  by_cases h0 : p.ex = 0
  · exfalso
    have hmag : mag p = p.man * 2 := by unfold mag; rw [h0]; simp
    omega
  · have hmax : max p.ex 1 = p.ex := by omega
    have hmageq : (p.man + 2 ^ 23) * 2 ^ p.ex = 2 ^ 181 := by
      rw [← h]; unfold mag; rw [if_neg h0, hmax]
    have hpow : 0 < (2 : ℕ) ^ p.ex := Nat.pos_pow_of_pos _ (by norm_num)
    have hlow : (2 : ℕ) ^ (23 + p.ex) ≤ 2 ^ 181 := by
      rw [← hmageq, pow_add]
      exact Nat.mul_le_mul_right _ (by omega)
    have hhigh : (2 : ℕ) ^ 181 < 2 ^ (24 + p.ex) := by
      rw [← hmageq, pow_add]
      exact Nat.mul_lt_mul_of_lt_of_le (by omega) (Nat.le_refl _) hpow
    have he1 : 23 + p.ex ≤ 181 := (Nat.pow_le_pow_iff_right (by norm_num)).1 hlow
    have he2 : 181 < 24 + p.ex := (Nat.pow_lt_pow_iff_right (by norm_num)).1 hhigh
    have hex : p.ex = 158 := by omega
    refine ⟨hex, ?_⟩
    rw [hex] at hmageq
    have h181 : (2 : ℕ) ^ 181 = 2 ^ 23 * 2 ^ 158 := by norm_num
    have hfin := Nat.eq_of_mul_eq_mul_right (show 0 < (2 : ℕ) ^ 158 by positivity)
      (hmageq.trans h181)
    omega

lemma val_le_val (a b : F32) : val a ≤ val b ↔ sgmag a ≤ sgmag b := by
  unfold val
  rw [div_le_div_iff_of_pos_right (by positivity : (0 : ℚ) < 2 ^ 150)]
  exact Int.cast_le

lemma val_diff (a b : F32) : val a - val b = ((sgmag a - sgmag b : ℤ) : ℚ) / 2 ^ 150 := by
  unfold val
  push_cast
  ring

lemma sgmag_one : sgmag one = 2 ^ 150 := by decide

/-- C4, amended: for every finite value of magnitude at most `2 ^ 31`
(i.e. `mag p ≤ 2 ^ 181`, the range where the `as i32` cast in `floor` and
`ceil` does not saturate destructively), `floor(x) ≤ x ≤ ceil(x)` and
`ceil(x) - floor(x)` is 0 or 1. -/
theorem c4_floor_ceil (p : F32) (hwf : WF p) (h1 : is_nan p = false)
    (h2 : is_infinite p = false) (hb : mag p ≤ 2 ^ 181) :
    val (floor p) ≤ val p ∧ val p ≤ val (ceil p) ∧
    (val (ceil p) - val (floor p) = 0 ∨ val (ceil p) - val (floor p) = 1) := by
  suffices h : sgmag (floor p) ≤ sgmag p ∧ sgmag p ≤ sgmag (ceil p) ∧
      (sgmag (ceil p) - sgmag (floor p) = 0 ∨ sgmag (ceil p) - sgmag (floor p) = 2 ^ 150) by
    obtain ⟨ha, hb', hc⟩ := h
    refine ⟨(val_le_val _ _).2 ha, (val_le_val _ _).2 hb', ?_⟩
    rcases hc with hc | hc
    · left; rw [val_diff, hc]; norm_num
    · right; rw [val_diff, hc]; norm_num
  have he : p.ex ≤ 254 := by
    rcases finite_ex_le p h1 h2 with h | h
    · exact h
    · exact absurd hwf.1 (by omega)
  have hfl : floor p = (if f32ge p posZero then as_f32 (as_i32 p)
      else if f32eq p (as_f32 (as_i32 p)) then as_f32 (as_i32 p)
      else fsub (as_f32 (as_i32 p)) one) := by
    simp [floor, h1, h2]
  have hcl : ceil p = (if f32ge p posZero then
      fadd (as_f32 (as_i32 p)) (if f32eq p (as_f32 (as_i32 p)) then posZero else one)
      else as_f32 (as_i32 p)) := by
    simp [ceil, h1, h2]
  have hgz := f32ge_zero p h1 h2
  have hai : as_i32 p = max (-(2 ^ 31)) (min (2 ^ 31 - 1)
      (if p.sign then -((mag p / 2 ^ 150 : ℕ) : ℤ) else ((mag p / 2 ^ 150 : ℕ) : ℤ))) := by
    simp [as_i32, h1, h2]
  set T : ℕ := mag p / 2 ^ 150 with hTdef
  have hT1 : T * 2 ^ 150 ≤ mag p := by omega
  have hT2 : mag p < (T + 1) * 2 ^ 150 := by omega
  have hT31 : T ≤ 2 ^ 31 := by omega
  by_cases hmag0 : mag p = 0
  · -- ±0.0
    have hT0 : T = 0 := by omega
    have hai0 : as_i32 p = 0 := by
      rw [hai, hT0]
      cases hps : p.sign <;> simp
    have hfz : as_f32 (as_i32 p) = posZero := by rw [hai0]; exact as_f32_zero
    have hsg0 : sgmag p = 0 := (sgmag_eq_zero p).2 hmag0
    have hge : f32ge p posZero = true := by
      rw [hgz]; exact decide_eq_true (by omega)
    have heq : f32eq p posZero = true := by
      rw [f32eq_finite p posZero h1 h2 rfl rfl]
      exact decide_eq_true (by rw [hsg0, sgmag_posZero])
    rw [hfl, hcl, if_pos hge, if_pos hge, hfz, if_pos heq]
    have hfaddz : fadd posZero posZero = posZero := by decide
    rw [hfaddz]
    simp [hsg0, sgmag_posZero]
  · cases hs : p.sign
    · -- positive
      have hsgp : sgmag p = (mag p : ℤ) := sgmag_of_pos p hs
      have hge : f32ge p posZero = true := by
        rw [hgz]; exact decide_eq_true (by rw [hsgp]; positivity)
      by_cases hsmall : mag p < 2 ^ 174
      · -- small positive: T < 2 ^ 24
        have hT24 : T < 2 ^ 24 := by omega
        have hti : as_i32 p = (T : ℤ) := by
          rw [hai, hs]
          simp only [Bool.false_eq_true, if_false]
          rw [min_eq_right (by omega), max_eq_right (by omega)]
        obtain ⟨hr1, hr2, hrwf, hrex, hrsg⟩ := as_f32_small (T : ℤ)
          (by rw [Int.natAbs_ofNat]; omega)
        rw [hti] at hfl hcl
        by_cases hint : (mag p : ℤ) = (T : ℤ) * 2 ^ 150
        · -- p is integer valued
          have hTne : T ≠ 0 := by
            intro hc; rw [hc] at hint; simp at hint; omega
          have heq : f32eq p (as_f32 (T : ℤ)) = true := by
            rw [f32eq_finite p _ h1 h2 hr1 hr2]
            exact decide_eq_true (by rw [hsgp, hrsg, hint])
          rw [hfl, hcl, if_pos hge, if_pos hge, if_pos heq]
          have hfad := fadd_posZero _ hrwf hr1 hr2 hrex
          have hmagr : mag (as_f32 (T : ℤ)) ≠ 0 := by
            have hna := sgmag_natAbs (as_f32 (T : ℤ))
            rw [hrsg] at hna
            intro hc
            rw [hc] at hna
            have : ((T : ℤ) * 2 ^ 150).natAbs = T * 2 ^ 150 := by
              rw [Int.natAbs_mul, Int.natAbs_ofNat]
              norm_num
            omega
          rw [if_neg hmagr] at hfad
          rw [hfad]
          refine ⟨?_, ?_, Or.inl ?_⟩
          · rw [hrsg, hsgp, hint]
          · rw [hrsg, hsgp, hint]
          · rw [hrsg]; ring
        · -- p is not integer valued
          have heq : f32eq p (as_f32 (T : ℤ)) = false := by
            rw [f32eq_finite p _ h1 h2 hr1 hr2]
            exact decide_eq_false (by rw [hsgp, hrsg]; exact hint)
          rw [hfl, hcl, if_pos hge, if_pos hge, if_neg (bnt heq)]
          rw [fadd_finite _ _ hr1 hr2 (by decide) (by decide)]
          have hts : sgmag (as_f32 (T : ℤ)) + sgmag one = ((T : ℤ) + 1) * 2 ^ 150 := by
            rw [hrsg, sgmag_one]; ring
          rw [hts, if_neg (by positivity), RN_div150 _ ((T : ℤ) + 1) rfl]
          obtain ⟨_, _, _, _, hcsg⟩ := as_f32_small ((T : ℤ) + 1)
            (by rw [show ((T : ℤ) + 1) = ((T + 1 : ℕ) : ℤ) by push_cast; ring,
              Int.natAbs_ofNat]; omega)
          refine ⟨?_, ?_, Or.inr ?_⟩
          · rw [hrsg, hsgp]; omega
          · rw [hcsg, hsgp]
            have : (mag p : ℤ) < ((T : ℤ) + 1) * 2 ^ 150 := by push_cast; omega
            omega
          · rw [hcsg, hrsg]; ring
      · -- big positive: the value is an integer
        have hdvd : mag p % 2 ^ 150 = 0 := mag_dvd_of_big p hwf (by omega)
        have hTexact : mag p = T * 2 ^ 150 := by omega
        by_cases hTtop : T ≤ 2 ^ 31 - 1
        · have hti : as_i32 p = (T : ℤ) := by
            rw [hai, hs]
            simp only [Bool.false_eq_true, if_false]
            rw [min_eq_right (by omega), max_eq_right (by omega)]
          have hasp : as_f32 ((T : ℤ)) = p := by
            unfold as_f32
            rw [Int.natAbs_ofNat, decide_eq_false (by omega : ¬((T : ℤ) < 0))]
            have hsc := RN_scale false T 1 (2 ^ 150) (by positivity)
            rw [one_mul] at hsc
            rw [← hsc] at *
            rw [hsc, ← hTexact, ← hs]
            exact RN_canonical p hwf he hmag0
          rw [hti, hasp] at hfl hcl
          have heqp : f32eq p p = true := by
            rw [f32eq_finite p p h1 h2 h1 h2]; simp
          rw [hfl, hcl, if_pos hge, if_pos hge, if_pos heqp]
          have hfad := fadd_posZero p hwf h1 h2 he
          rw [if_neg hmag0] at hfad
          rw [hfad]
          exact ⟨le_refl _, le_refl _, Or.inl (by ring)⟩
        · -- the corner: mag p = 2 ^ 181, the cast clamps to 2 ^ 31 - 1
          have hT31e : T = 2 ^ 31 := by omega
          have hmag181 : mag p = 2 ^ 181 := by rw [hTexact, hT31e]; norm_num
          obtain ⟨hex158, hman0⟩ := mag_eq_2pow181 p hwf hmag181
          have hpeq : p = ⟨false, 158, 0⟩ := by
            rcases p with ⟨ps, pe, pm⟩
            simp only at hs hex158 hman0
            rw [hs, hex158, hman0]
          have hti : as_i32 p = 2 ^ 31 - 1 := by
            rw [hai, hs]
            simp only [Bool.false_eq_true, if_false]
            rw [min_eq_left (by omega), max_eq_right (by omega)]
          have hasp : as_f32 (2 ^ 31 - 1 : ℤ) = p := by
            rw [hpeq]; decide
          rw [hti, hasp] at hfl hcl
          have heqp : f32eq p p = true := by
            rw [f32eq_finite p p h1 h2 h1 h2]; simp
          rw [hfl, hcl, if_pos hge, if_pos hge, if_pos heqp]
          have hfad := fadd_posZero p hwf h1 h2 he
          rw [if_neg hmag0] at hfad
          rw [hfad]
          exact ⟨le_refl _, le_refl _, Or.inl (by ring)⟩
    · -- negative
      have hsgp : sgmag p = -(mag p : ℤ) := sgmag_of_neg p hs
      have hge : f32ge p posZero = false := by
        rw [hgz]; exact decide_eq_false (by rw [hsgp]; omega)
      have hti : as_i32 p = -((T : ℕ) : ℤ) := by
        rw [hai, hs]
        simp only [if_true]
        rw [min_eq_right (by omega), max_eq_right (by omega)]
      rw [hti] at hfl hcl
      rw [hfl, hcl, if_neg (bnt hge), if_neg (bnt hge)]
      by_cases hsmall : mag p < 2 ^ 174
      · have hT24 : T < 2 ^ 24 := by omega
        obtain ⟨hr1, hr2, hrwf, hrex, hrsg⟩ := as_f32_small (-(T : ℤ))
          (by rw [Int.natAbs_neg, Int.natAbs_ofNat]; omega)
        by_cases hint : (mag p : ℤ) = (T : ℤ) * 2 ^ 150
        · have heq : f32eq p (as_f32 (-(T : ℤ))) = true := by
            rw [f32eq_finite p _ h1 h2 hr1 hr2]
            exact decide_eq_true (by rw [hsgp, hrsg, hint]; ring)
          rw [if_pos heq]
          refine ⟨?_, ?_, Or.inl ?_⟩
          · rw [hrsg, hsgp, hint]; omega
          · rw [hrsg, hsgp, hint]; omega
          · rw [hrsg]; ring
        · have heq : f32eq p (as_f32 (-(T : ℤ))) = false := by
            rw [f32eq_finite p _ h1 h2 hr1 hr2]
            refine decide_eq_false (fun hc => hint ?_)
            rw [hsgp, hrsg] at hc
            omega
          rw [if_neg (bnt heq)]
          rw [fsub_finite _ _ hr1 hr2 (by decide) (by decide)]
          have hts : sgmag (as_f32 (-(T : ℤ))) - sgmag one = (-(T : ℤ) - 1) * 2 ^ 150 := by
            rw [hrsg, sgmag_one]; ring
          rw [hts, if_neg (by nlinarith [sq_nonneg ((2:ℤ)^75)] ),
            RN_div150 _ (-(T : ℤ) - 1) rfl]
          obtain ⟨_, _, _, _, hfsg⟩ := as_f32_small (-(T : ℤ) - 1) (by omega)
          refine ⟨?_, ?_, Or.inr ?_⟩
          · rw [hfsg, hsgp]
            have hc2 : (mag p : ℤ) < ((T : ℤ) + 1) * 2 ^ 150 := by push_cast; omega
            omega
          · rw [hrsg, hsgp]
            have hc1 : ((T : ℤ)) * 2 ^ 150 ≤ (mag p : ℤ) := by push_cast; omega
            omega
          · rw [hrsg, hfsg]; ring
      · -- big negative: the value is an integer, the cast round-trips to p
        have hdvd : mag p % 2 ^ 150 = 0 := mag_dvd_of_big p hwf (by omega)
        have hTexact : mag p = T * 2 ^ 150 := by omega
        have hasp : as_f32 (-(T : ℤ)) = p := by
          unfold as_f32
          have hTne : T ≠ 0 := by omega
          rw [Int.natAbs_neg, Int.natAbs_ofNat,
            decide_eq_true (by omega : (-(T : ℤ) < 0))]
          have hsc := RN_scale true T 1 (2 ^ 150) (by positivity)
          rw [one_mul] at hsc
          rw [← hsc, ← hTexact, ← hs]
          exact RN_canonical p hwf he hmag0
        rw [hasp]
        have heqp : f32eq p p = true := by
          rw [f32eq_finite p p h1 h2 h1 h2]; simp
        rw [if_pos heqp]
        exact ⟨le_refl _, le_refl _, Or.inl (by ring)⟩

/-- Witness for C4 at the pattern of `0.5_f32`. -/
theorem c4_witness :
    WF half ∧ is_nan half = false ∧ is_infinite half = false ∧ mag half ≤ 2 ^ 181 ∧
    (val (floor half) ≤ val half ∧ val half ≤ val (ceil half) ∧
     (val (ceil half) - val (floor half) = 0 ∨ val (ceil half) - val (floor half) = 1)) :=
  ⟨by decide, by decide, by decide, by decide,
   c4_floor_ceil half (by decide) (by decide) (by decide) (by decide)⟩

end LibxSpec
